import Mathlib

/-
Verification of src/utils/post_process.py (YOLACT post-processing).

Shallow embedding conventions:
- Python floats are modelled as ℚ (exact ordered-field arithmetic), except for
  the softmax, which uses ℝ because it needs Real.exp.
- numpy arrays are modelled as lists, or as functions from pixel indices for
  2-D masks of a fixed shape (h, w).
- math.sqrt is an external library function; the anchor generator is
  parameterised over it, so every theorem below holds for any sqrt.
-/

/-- Configuration dictionary fields used by post_process.py
(cfg['aspect_ratios'], cfg['scales'], cfg['img_size']). -/
structure Config where
  aspect_ratios : List ℚ
  scales : List ℚ
  img_size : ℚ

/-- make_anchors (post_process.py lines 302-317): builds the flat prior list
[x, y, w, h, x, y, w, h, ...].  Iteration is product(range(conv_h), range(conv_w))
(rows outer, columns inner) with the aspect-ratio loop innermost;
x = (i + 0.5) / conv_w, y = (j + 0.5) / conv_h, w = scale * sqrt(ar) / img_size,
h = scale / sqrt(ar) / img_size. -/
def make_anchors (s : ℚ → ℚ) (cfg : Config) (conv_h conv_w : ℕ) (scale : ℚ) : List ℚ :=
  (List.range conv_h).flatMap (fun j =>
    (List.range conv_w).flatMap (fun i =>
      let x : ℚ := ((i : ℚ) + 1/2) / (conv_w : ℚ)
      let y : ℚ := ((j : ℚ) + 1/2) / (conv_h : ℚ)
      cfg.aspect_ratios.flatMap (fun ar0 =>
        let ar := s ar0
        let w := scale * ar / cfg.img_size
        let h := scale / ar / cfg.img_size
        [x, y, w, h])))

namespace RKNNDetection

/-- RKNNDetection.__init__: self.input_size = 544. -/
def input_size : ℕ := 544

/-- RKNNDetection.__init__: fpn_fm_shape = [ceil(input_size / stride) for stride in
(8, 16, 32, 64, 128)], with ceiling division on naturals. -/
def fpn_fm_shape : List ℕ :=
  [8, 16, 32, 64, 128].map (fun stride => (input_size + stride - 1) / stride)

/-- RKNNDetection.__init__: self.anchors accumulated over enumerate(fpn_fm_shape),
appending make_anchors(cfg, size, size, cfg['scales'][i]) for each level. -/
def anchors (s : ℚ → ℚ) (cfg : Config) : List ℚ :=
  fpn_fm_shape.enum.flatMap (fun p => make_anchors s cfg p.2 p.2 (cfg.scales.getD p.1 0))

/-- Number of anchors in the flat prior list: each anchor occupies 4 consecutive floats. -/
def anchorCount (s : ℚ → ℚ) (cfg : Config) : ℕ := (anchors s cfg).length / 4

end RKNNDetection

theorem length_flatMap_const {α β : Type} (l : List α) (f : α → List β) (c : ℕ)
    (h : ∀ a ∈ l, (f a).length = c) : (l.flatMap f).length = l.length * c := by
  induction l with
  | nil => simp
  | cons a t ih =>
    simp only [List.flatMap_cons, List.length_append, List.length_cons]
    rw [h a (by simp), ih (fun b hb => h b (by simp [hb]))]
    ring

theorem make_anchors_length (s : ℚ → ℚ) (cfg : Config) (conv_h conv_w : ℕ) (scale : ℚ) :
    (make_anchors s cfg conv_h conv_w scale).length
      = conv_h * (conv_w * (cfg.aspect_ratios.length * 4)) := by
  unfold make_anchors
  rw [length_flatMap_const _ _ (conv_w * (cfg.aspect_ratios.length * 4)), List.length_range]
  intro j _
  rw [length_flatMap_const _ _ (cfg.aspect_ratios.length * 4), List.length_range]
  intro i _
  rw [length_flatMap_const _ _ 4]
  intro ar _
  rfl

/-- C1: for every configuration whose aspect-ratio list has length k, the anchor
sequence generated at RKNNDetection construction contains exactly k * (sum of Li^2)
anchors (4 floats per anchor), where the Li are the five pyramid side lengths
ceil(input_size / stride) for strides 8, 16, 32, 64, 128. -/
theorem anchors_count_spec (s : ℚ → ℚ) (cfg : Config) :
    (RKNNDetection.anchors s cfg).length
        = 4 * (cfg.aspect_ratios.length
            * ((RKNNDetection.fpn_fm_shape.map (fun L => L * L)).sum)) ∧
    RKNNDetection.anchorCount s cfg
        = cfg.aspect_ratios.length
            * ((RKNNDetection.fpn_fm_shape.map (fun L => L * L)).sum) := by
  have hshape : RKNNDetection.fpn_fm_shape = [68, 34, 17, 9, 5] := by rfl
  have hlen : (RKNNDetection.anchors s cfg).length
      = 4 * (cfg.aspect_ratios.length
          * ((RKNNDetection.fpn_fm_shape.map (fun L => L * L)).sum)) := by
    unfold RKNNDetection.anchors
    rw [hshape]
    have henum : ([68, 34, 17, 9, 5] : List ℕ).enum
        = [(0, 68), (1, 34), (2, 17), (3, 9), (4, 5)] := by rfl
    rw [henum]
    simp only [List.flatMap_cons, List.flatMap_nil, List.length_append,
      List.length_nil, make_anchors_length, List.map_cons, List.map_nil, List.sum_cons,
      List.sum_nil]
    ring
  exact ⟨hlen, by unfold RKNNDetection.anchorCount; rw [hlen, Nat.mul_div_cancel_left _ (by norm_num)]⟩

theorem flatMap_drop_chunk {α β : Type} (f : α → List β) (c : ℕ)
    (hc : ∀ a, (f a).length = c) :
    ∀ (l : List α) (i : ℕ) (hi : i < l.length),
      (l.flatMap f).drop (i * c) = f (l.get ⟨i, hi⟩) ++ (l.drop (i + 1)).flatMap f := by
  intro l
  induction l with
  | nil => intro i hi; exact absurd hi (by simp)
  | cons a t ih =>
    intro i hi
    cases i with
    | zero => simp
    | succ j =>
      have hj : j < t.length := by simpa using hi
      have hmul : (j + 1) * c = (f a).length + j * c := by rw [hc]; ring
      rw [List.flatMap_cons, hmul, List.drop_append]
      simpa using ih j hj

theorem flatMap3_take4 {β : Type} (A : List β) (conv_h conv_w : ℕ)
    (g : ℕ → ℕ → β → List ℚ) (hg : ∀ j i b, (g j i b).length = 4)
    (row col arIdx : ℕ) (hr : row < conv_h) (hcw : col < conv_w) (ha : arIdx < A.length) :
    (((List.range conv_h).flatMap (fun j => (List.range conv_w).flatMap (fun i =>
        A.flatMap (g j i)))).drop
          (4 * ((row * conv_w + col) * A.length + arIdx))).take 4
      = g row col (A.get ⟨arIdx, ha⟩) := by
  have hlen_cell : ∀ j i : ℕ, (A.flatMap (g j i)).length = A.length * 4 :=
    fun j i => length_flatMap_const _ _ 4 (fun b _ => hg j i b)
  have hlen_row : ∀ j : ℕ, ((List.range conv_w).flatMap (fun i => A.flatMap (g j i))).length
      = conv_w * (A.length * 4) := fun j => by
    rw [length_flatMap_const _ _ (A.length * 4) (fun i _ => hlen_cell j i), List.length_range]
  have h1 := flatMap_drop_chunk (fun j => (List.range conv_w).flatMap (fun i => A.flatMap (g j i)))
      (conv_w * (A.length * 4)) hlen_row (List.range conv_h) row (by simpa using hr)
  simp only [List.get_eq_getElem, List.getElem_range] at h1
  have h2c := flatMap_drop_chunk (fun i => A.flatMap (g row i)) (A.length * 4)
      (hlen_cell row) (List.range conv_w) col (by simpa using hcw)
  simp only [List.get_eq_getElem, List.getElem_range] at h2c
  have h3c := flatMap_drop_chunk (g row col) 4 (hg row col) A arIdx ha
  have hA4 : arIdx * 4 + 4 ≤ A.length * 4 := by omega
  have hcolA : col * (A.length * 4) + A.length * 4 ≤ conv_w * (A.length * 4) := by
    calc col * (A.length * 4) + A.length * 4 = (col + 1) * (A.length * 4) := by ring
      _ ≤ conv_w * (A.length * 4) := Nat.mul_le_mul_right _ (Nat.succ_le_of_lt hcw)
  have hle1 : col * (A.length * 4) + arIdx * 4 + 4 ≤ conv_w * (A.length * 4) := by
    linarith [hA4, hcolA]
  have hidx : 4 * ((row * conv_w + col) * A.length + arIdx)
      = row * (conv_w * (A.length * 4)) + (col * (A.length * 4) + arIdx * 4) := by ring
  rw [hidx, ← List.drop_drop, h1]
  rw [List.drop_append_of_le_length (by rw [hlen_row row]; linarith [hle1])]
  rw [List.take_append_of_le_length (by
    rw [List.length_drop, hlen_row row]
    exact Nat.le_sub_of_add_le (by linarith [hle1]))]
  rw [← List.drop_drop, h2c]
  rw [List.drop_append_of_le_length (by rw [hlen_cell row col]; linarith [hA4])]
  rw [List.take_append_of_le_length (by
    rw [List.length_drop, hlen_cell row col]
    exact Nat.le_sub_of_add_le (by linarith [hA4]))]
  rw [h3c, ← hg row col (A.get ⟨arIdx, ha⟩)]
  exact List.take_left _ _

/-- C2: make_anchors enumerates each level's cells in row-major order (rows outer,
columns inner, aspect ratios innermost): the anchor at flat position
(row * conv_w + col) * k + arIdx (4 floats each) has center
((col + 0.5) / conv_w, (row + 0.5) / conv_h), width scale * sqrt(ar) / img_size and
height scale / sqrt(ar) / img_size; make_anchors is a total function of the
configuration with no error conditions. -/
theorem make_anchors_order_spec (s : ℚ → ℚ) (cfg : Config) (conv_h conv_w : ℕ) (scale : ℚ)
    (row col arIdx : ℕ) (hr : row < conv_h) (hcw : col < conv_w)
    (ha : arIdx < cfg.aspect_ratios.length) :
    ((make_anchors s cfg conv_h conv_w scale).drop
        (4 * ((row * conv_w + col) * cfg.aspect_ratios.length + arIdx))).take 4
      = [((col : ℚ) + 1/2) / (conv_w : ℚ), ((row : ℚ) + 1/2) / (conv_h : ℚ),
         scale * s (cfg.aspect_ratios.get ⟨arIdx, ha⟩) / cfg.img_size,
         scale / s (cfg.aspect_ratios.get ⟨arIdx, ha⟩) / cfg.img_size] :=
  flatMap3_take4 cfg.aspect_ratios conv_h conv_w
    (fun j i ar0 => [((i : ℚ) + 1/2) / (conv_w : ℚ), ((j : ℚ) + 1/2) / (conv_h : ℚ),
       scale * s ar0 / cfg.img_size, scale / s ar0 / cfg.img_size])
    (fun _ _ _ => rfl) row col arIdx hr hcw ha

theorem make_anchors_order_witness :
    (1 : ℕ) < 2 ∧ (0 : ℕ) < 2 ∧ (0 : ℕ) < (Config.mk [2] [] 1).aspect_ratios.length ∧
    ((make_anchors id (Config.mk [2] [] 1) 2 2 1).drop 8).take 4
      = [1/4, 3/4, 2, 1/2] := by
  refine ⟨by decide, by decide, by decide, ?_⟩
  have h := make_anchors_order_spec id (Config.mk [2] [] 1) 2 2 1 1 0 0
    (by decide) (by decide) (by decide)
  simp only [id_eq] at h
  norm_num at h
  convert h using 2

/-- One row of results[0][0] from the secondary decode graph:
[x1, y1, x2, y2, score, class_id] (class_id already truncated to an integer by int()). -/
structure DetRow where
  b0 : ℚ
  b1 : ℚ
  b2 : ℚ
  b3 : ℚ
  score : ℚ
  class_id : ℕ

/-- Python int(max(v, 0)) on a float v: after the clamp the argument is nonnegative,
so int() truncation coincides with the floor. -/
def py_int_max0 (v : ℚ) : ℕ := (⌊max v 0⌋).toNat

/-- The crop helper inside ONNXDetection.prep_display: the normalized bounding box
mapped onto the pixel grid of a mask of shape (h, w); returns (x1, y1, x2, y2), the
slices being (y1:y2, x1:x2). -/
def crop (row : DetRow) (h w : ℕ) : ℕ × ℕ × ℕ × ℕ :=
  (py_int_max0 (row.b0 * w), py_int_max0 (row.b1 * h),
   py_int_max0 (row.b2 * w), py_int_max0 (row.b3 * h))

/-- Per-instance mask cropping in ONNXDetection.prep_display:
mask = np.where(mask > 0.5, class_id + 1, 0).astype(np.uint8) followed by
cropped = np.zeros(...); cropped[region] = mask[region].  Predicted masks are
functions from pixel indices (r, c) to float values; the uint8 cast is the mod-256
reduction. -/
def cropped_mask (row : DetRow) (h w : ℕ) (m : ℕ → ℕ → ℚ) : ℕ → ℕ → ℕ :=
  fun r c =>
    if (crop row h w).2.1 ≤ r ∧ r < (crop row h w).2.2.2 ∧
        (crop row h w).1 ≤ c ∧ c < (crop row h w).2.2.1 then
      (if 1/2 < m r c then (row.class_id + 1) % 256 else 0)
    else 0

namespace ONNXDetection

/-- ONNXDetection.__init__: self.threshold = 0.1. -/
def threshold : ℚ := 1/10

/-- The loop of ONNXDetection.prep_display over zip(results[0][0], results[1]):
instances with threshold > score are skipped, the rest are appended in order to the
four parallel output sequences (bboxes, scores, class_ids, masks). -/
def prep_loop (t : ℚ) (h w : ℕ) :
    List (DetRow × (ℕ → ℕ → ℚ)) →
      List (ℚ × ℚ × ℚ × ℚ) × List ℚ × List ℕ × List (ℕ → ℕ → ℕ)
  | [] => ([], [], [], [])
  | p :: rest =>
    let out := prep_loop t h w rest
    if t > p.1.score then out
    else ((p.1.b0, p.1.b1, p.1.b2, p.1.b3) :: out.1, p.1.score :: out.2.1,
          p.1.class_id :: out.2.2.1, cropped_mask p.1 h w p.2 :: out.2.2.2)

/-- ONNXDetection.prep_display: results[0][0] is the list of instance rows,
results[1] the parallel list of predicted masks of shape (h, w). -/
def prep_display (t : ℚ) (h w : ℕ) (results : List DetRow) (masks : List (ℕ → ℕ → ℚ)) :
    List (ℚ × ℚ × ℚ × ℚ) × List ℚ × List ℕ × List (ℕ → ℕ → ℕ) :=
  prep_loop t h w (results.zip masks)

/-- The instances prep_display keeps: exactly those with score at least the threshold. -/
def keptOf (t : ℚ) (l : List (DetRow × (ℕ → ℕ → ℚ))) : List (DetRow × (ℕ → ℕ → ℚ)) :=
  l.filter (fun p => t ≤ p.1.score)

theorem prep_loop_eq (t : ℚ) (h w : ℕ) (l : List (DetRow × (ℕ → ℕ → ℚ))) :
    prep_loop t h w l =
      ((keptOf t l).map (fun p => (p.1.b0, p.1.b1, p.1.b2, p.1.b3)),
       (keptOf t l).map (fun p => p.1.score),
       (keptOf t l).map (fun p => p.1.class_id),
       (keptOf t l).map (fun p => cropped_mask p.1 h w p.2)) := by
  induction l with
  | nil => rfl
  | cons p rest ih =>
    rcases lt_or_le p.1.score t with hlt | hle
    · have hskip : t > p.1.score := hlt
      have hfilter : (decide (t ≤ p.1.score)) = false := by
        simp [not_le.mpr hlt]
      simp [prep_loop, keptOf, List.filter_cons, hfilter, ih, if_pos hskip]
    · have hkeep : ¬ (t > p.1.score) := not_lt.mpr hle
      have hfilter : (decide (t ≤ p.1.score)) = true := by simp [hle]
      simp [prep_loop, keptOf, List.filter_cons, hfilter, ih, if_neg hkeep]

end ONNXDetection

/-- C3: every detection kept by ONNXDetection.prep_display has score at least the
confidence threshold, and the four output sequences are exactly the per-field images
of the instance list restricted to the instances with score >= threshold: each
candidate with score < threshold is dropped and every other instance is kept. -/
theorem prep_display_threshold_spec (t : ℚ) (h w : ℕ) (results : List DetRow)
    (masks : List (ℕ → ℕ → ℚ)) :
    (∀ sc ∈ (ONNXDetection.prep_display t h w results masks).2.1, t ≤ sc) ∧
    (ONNXDetection.prep_display t h w results masks).2.1
        = (ONNXDetection.keptOf t (results.zip masks)).map (fun p => p.1.score) ∧
    (ONNXDetection.prep_display t h w results masks).1
        = (ONNXDetection.keptOf t (results.zip masks)).map
            (fun p => (p.1.b0, p.1.b1, p.1.b2, p.1.b3)) ∧
    (ONNXDetection.prep_display t h w results masks).2.2.1
        = (ONNXDetection.keptOf t (results.zip masks)).map (fun p => p.1.class_id) ∧
    (ONNXDetection.prep_display t h w results masks).2.2.2
        = (ONNXDetection.keptOf t (results.zip masks)).map
            (fun p => cropped_mask p.1 h w p.2) ∧
    ONNXDetection.keptOf t (results.zip masks)
        = (results.zip masks).filter (fun p => t ≤ p.1.score) := by
  have heq := ONNXDetection.prep_loop_eq t h w (results.zip masks)
  refine ⟨?_, ?_, ?_, ?_, ?_, rfl⟩
  · intro sc hsc
    unfold ONNXDetection.prep_display at hsc
    rw [heq] at hsc
    rcases List.mem_map.mp hsc with ⟨p, hp, hps⟩
    have := List.of_mem_filter hp
    simpa [hps] using of_decide_eq_true this
  · unfold ONNXDetection.prep_display
    rw [heq]
  · unfold ONNXDetection.prep_display
    rw [heq]
  · unfold ONNXDetection.prep_display
    rw [heq]
  · unfold ONNXDetection.prep_display
    rw [heq]

/-- C7: raising the confidence threshold never increases the detections surviving
ONNXDetection.prep_display: for t1 <= t2 the instances kept at t2 form a sublist of
the instances kept at t1, and in particular no more detections survive at t2. -/
theorem prep_display_threshold_monotone (t1 t2 : ℚ) (h w : ℕ) (results : List DetRow)
    (masks : List (ℕ → ℕ → ℚ)) (hle : t1 ≤ t2) :
    (ONNXDetection.keptOf t2 (results.zip masks)).Sublist
        (ONNXDetection.keptOf t1 (results.zip masks)) ∧
    (ONNXDetection.prep_display t2 h w results masks).2.1.length
        ≤ (ONNXDetection.prep_display t1 h w results masks).2.1.length := by
  have hsub : (ONNXDetection.keptOf t2 (results.zip masks)).Sublist
      (ONNXDetection.keptOf t1 (results.zip masks)) := by
    unfold ONNXDetection.keptOf
    exact List.monotone_filter_right _ (fun p hp => by
      simp only [decide_eq_true_eq] at hp ⊢
      exact le_trans hle hp)
  refine ⟨hsub, ?_⟩
  unfold ONNXDetection.prep_display
  rw [ONNXDetection.prep_loop_eq, ONNXDetection.prep_loop_eq]
  simpa using hsub.length_le

theorem prep_display_threshold_monotone_witness :
    (0 : ℚ) ≤ 1 ∧
    (ONNXDetection.prep_display 1 1 1 [DetRow.mk 0 0 1 1 (1/2) 0] [fun _ _ => 0]).2.1.length
      ≤ (ONNXDetection.prep_display 0 1 1 [DetRow.mk 0 0 1 1 (1/2) 0] [fun _ _ => 0]).2.1.length :=
  ⟨by norm_num,
   (prep_display_threshold_monotone 0 1 1 1 [DetRow.mk 0 0 1 1 (1/2) 0] [fun _ _ => 0]
     (by norm_num)).2⟩

/-- COCO_CLASSES tuple from post_process.py: the 80 COCO class names. -/
def COCO_CLASSES : List String :=
  ["person", "bicycle", "car", "motorcycle", "airplane", "bus",
   "train", "truck", "boat", "traffic light", "fire hydrant",
   "stop sign", "parking meter", "bench", "bird", "cat", "dog",
   "horse", "sheep", "cow", "elephant", "bear", "zebra", "giraffe",
   "backpack", "umbrella", "handbag", "tie", "suitcase", "frisbee",
   "skis", "snowboard", "sports ball", "kite", "baseball bat",
   "baseball glove", "skateboard", "surfboard", "tennis racket",
   "bottle", "wine glass", "cup", "fork", "knife", "spoon", "bowl",
   "banana", "apple", "sandwich", "orange", "broccoli", "carrot",
   "hot dog", "pizza", "donut", "cake", "chair", "couch",
   "potted plant", "bed", "dining table", "toilet", "tv", "laptop",
   "mouse", "remote", "keyboard", "cell phone", "microwave", "oven",
   "toaster", "sink", "refrigerator", "book", "clock", "vase",
   "scissors", "teddy bear", "hair drier", "toothbrush"]

namespace Visualizer

/-- The compositing computation in Visualizer.rknn_draw (lines 370-372):
masks_semantic = mask_p * (ids_p[:, None, None] + 1), summed over the instance axis
and reduced modulo (len(COCO_CLASSES) - 1).  Instance masks are functions from pixel
indices; ids_p and mask_p are parallel lists.  The resulting value at a pixel is the
palette index used for COLORS[masks_semantic]. -/
def masks_semantic (ids_p : List ℕ) (mask_p : List (ℕ → ℕ → ℕ)) : ℕ → ℕ → ℕ :=
  fun r c =>
    (((ids_p.zip mask_p).map (fun p => p.2 r c * (p.1 + 1))).sum)
      % (COCO_CLASSES.length - 1)

/-- Visualizer.rknn_draw: if ids_p is None the original image is returned unchanged;
otherwise COLORS[masks_semantic] is blended with the frame and boxes/labels are drawn
through cv2, abstracted here as an external render function of the semantic mask. -/
def rknn_draw {Image : Type} (render : (ℕ → ℕ → ℕ) → Image) (img_origin : Image)
    (ids_p : Option (List ℕ)) (mask_p : List (ℕ → ℕ → ℕ)) : Image :=
  match ids_p with
  | none => img_origin
  | some ids => render (masks_semantic ids mask_p)

end Visualizer

theorem sum_map_tag_eq_filter (r c : ℕ) :
    ∀ l : List (ℕ × (ℕ → ℕ → ℕ)), (∀ p ∈ l, p.2 r c = 0 ∨ p.2 r c = 1) →
      (l.map (fun p => p.2 r c * (p.1 + 1))).sum
        = ((l.filter (fun p => p.2 r c = 1)).map (fun p => p.1 + 1)).sum := by
  intro l
  induction l with
  | nil => intro _; rfl
  | cons p rest ih =>
    intro hl
    have hrest := ih (fun q hq => hl q (by simp [hq]))
    rcases hl p (by simp) with h0 | h1
    · have hdec : (decide (p.2 r c = 1)) = false := by simp [h0]
      simp [List.filter_cons, hdec, h0, hrest]
    · have hdec : (decide (p.2 r c = 1)) = true := by simp [h1]
      simp [List.filter_cons, hdec, h1, hrest]

/-- C5: in multi-instance display compositing the palette index at each pixel equals
the per-pixel sum of the stacked instance tag values (class_id + 1 over each
instance's binary mask) reduced modulo (number of classes - 1), which is 79 for the
80 COCO classes; the computation is a pure function, hence deterministic. -/
theorem masks_semantic_spec (ids_p : List ℕ) (mask_p : List (ℕ → ℕ → ℕ)) (r c : ℕ)
    (hbin : ∀ p ∈ ids_p.zip mask_p, p.2 r c = 0 ∨ p.2 r c = 1) :
    Visualizer.masks_semantic ids_p mask_p r c
        = ((((ids_p.zip mask_p).filter (fun p => p.2 r c = 1)).map
            (fun p => p.1 + 1)).sum) % (COCO_CLASSES.length - 1) ∧
    COCO_CLASSES.length - 1 = 79 := by
  constructor
  · unfold Visualizer.masks_semantic
    rw [sum_map_tag_eq_filter r c _ hbin]
  · rfl

theorem masks_semantic_witness :
    (∀ p ∈ (([2, 4] : List ℕ).zip
        ([fun _ _ => 1, fun _ _ => 1] : List (ℕ → ℕ → ℕ))), p.2 0 0 = 0 ∨ p.2 0 0 = 1) ∧
    Visualizer.masks_semantic [2, 4] [fun _ _ => 1, fun _ _ => 1] 0 0
        = (((([2, 4] : List ℕ).zip
              ([fun _ _ => 1, fun _ _ => 1] : List (ℕ → ℕ → ℕ))).filter
              (fun p => p.2 0 0 = 1)).map (fun p => p.1 + 1)).sum
            % (COCO_CLASSES.length - 1) ∧
    COCO_CLASSES.length - 1 = 79 ∧
    Visualizer.masks_semantic [2, 4] [fun _ _ => 1, fun _ _ => 1] 0 0 = (3 + 5) % 79 := by
  have hbin : ∀ p ∈ (([2, 4] : List ℕ).zip
      ([fun _ _ => 1, fun _ _ => 1] : List (ℕ → ℕ → ℕ))), p.2 0 0 = 0 ∨ p.2 0 0 = 1 := by
    intro p hp
    simp only [List.zip_cons_cons, List.zip_nil_right, List.mem_cons,
      List.not_mem_nil, or_false] at hp
    rcases hp with h | h <;> subst h <;> simp
  have h := masks_semantic_spec [2, 4] [fun _ _ => 1, fun _ _ => 1] 0 0 hbin
  exact ⟨hbin, h.1, h.2, by rfl⟩

/-- C8: an empty result is not an error: when no instance reaches the confidence
threshold, ONNXDetection.prep_display returns four empty sequences (it is a total
function, no exception), and Visualizer.rknn_draw returns the original frame
unchanged when ids_p is None. -/
theorem empty_result_spec {Image : Type} (render : (ℕ → ℕ → ℕ) → Image) (img : Image)
    (t : ℚ) (h w : ℕ) (results : List DetRow) (masks : List (ℕ → ℕ → ℚ))
    (mask_p : List (ℕ → ℕ → ℕ))
    (hall : ∀ p ∈ results.zip masks, p.1.score < t) :
    ONNXDetection.prep_display t h w results masks = ([], [], [], []) ∧
    Visualizer.rknn_draw render img none mask_p = img := by
  constructor
  · unfold ONNXDetection.prep_display
    rw [ONNXDetection.prep_loop_eq]
    have hnil : ONNXDetection.keptOf t (results.zip masks) = [] := by
      unfold ONNXDetection.keptOf
      refine List.filter_eq_nil_iff.mpr (fun p hp => ?_)
      simp only [decide_eq_true_eq]
      exact not_le.mpr (hall p hp)
    simp [hnil]
  · rfl

theorem empty_result_witness :
    (∀ p ∈ ([DetRow.mk 0 0 1 1 0 0].zip ([fun _ _ => 1] : List (ℕ → ℕ → ℚ))),
        p.1.score < (1 : ℚ)) ∧
    ONNXDetection.prep_display 1 1 1 [DetRow.mk 0 0 1 1 0 0] [fun _ _ => 1]
        = ([], [], [], []) ∧
    Visualizer.rknn_draw (fun _ => (0 : ℕ)) 5 none [] = 5 := by
  have hall : ∀ p ∈ ([DetRow.mk 0 0 1 1 0 0].zip ([fun _ _ => 1] : List (ℕ → ℕ → ℚ))),
      p.1.score < (1 : ℚ) := by
    intro p hp
    simp only [List.zip_cons_cons, List.zip_nil_right, List.mem_cons,
      List.not_mem_nil, or_false] at hp
    subst hp
    norm_num
  have h := empty_result_spec (fun _ => (0 : ℕ)) 5 1 1 1
    [DetRow.mk 0 0 1 1 0 0] [fun _ _ => 1] [] hall
  exact ⟨hall, h.1, h.2⟩

/-- C4: for every surviving instance (score at least the threshold, class id c with
c + 1 inside the uint8 range) the cropped mask built by ONNXDetection.prep_display
is among its output masks; every nonzero pixel of it equals c + 1 and comes from a
predicted mask value above the 0.5 binarization threshold inside the bounding-box
region; every pixel outside that region is 0; and the box is mapped to the pixel
grid by flooring coord * dimension and clamping to be nonnegative. -/
theorem prep_display_mask_tagging (t : ℚ) (h w : ℕ) (results : List DetRow)
    (masks : List (ℕ → ℕ → ℚ)) (row : DetRow) (m : ℕ → ℕ → ℚ)
    (hmem : (row, m) ∈ results.zip masks) (hs : t ≤ row.score)
    (hc : row.class_id < 255) :
    cropped_mask row h w m ∈ (ONNXDetection.prep_display t h w results masks).2.2.2 ∧
    (∀ r c : ℕ, cropped_mask row h w m r c ≠ 0 →
        cropped_mask row h w m r c = row.class_id + 1 ∧ 1/2 < m r c ∧
        ((crop row h w).2.1 ≤ r ∧ r < (crop row h w).2.2.2 ∧
         (crop row h w).1 ≤ c ∧ c < (crop row h w).2.2.1)) ∧
    (∀ r c : ℕ, ¬((crop row h w).2.1 ≤ r ∧ r < (crop row h w).2.2.2 ∧
        (crop row h w).1 ≤ c ∧ c < (crop row h w).2.2.1) →
        cropped_mask row h w m r c = 0) ∧
    (∀ v : ℚ, py_int_max0 v = (⌊v⌋).toNat) := by
  refine ⟨?_, ?_, ?_, ?_⟩
  · unfold ONNXDetection.prep_display
    rw [ONNXDetection.prep_loop_eq]
    exact List.mem_map.mpr ⟨(row, m), List.mem_filter.mpr ⟨hmem, by simp [hs]⟩, rfl⟩
  · intro r c hne
    unfold cropped_mask at hne ⊢
    by_cases hreg : (crop row h w).2.1 ≤ r ∧ r < (crop row h w).2.2.2 ∧
        (crop row h w).1 ≤ c ∧ c < (crop row h w).2.2.1
    · rw [if_pos hreg] at hne ⊢
      by_cases hm : 1/2 < m r c
      · rw [if_pos hm] at hne ⊢
        exact ⟨Nat.mod_eq_of_lt (by omega), hm, hreg⟩
      · rw [if_neg hm] at hne
        exact absurd rfl hne
    · rw [if_neg hreg] at hne
      exact absurd rfl hne
  · intro r c hreg
    unfold cropped_mask
    rw [if_neg hreg]
  · intro v
    unfold py_int_max0
    rcases le_or_lt 0 v with h0 | h0
    · rw [max_eq_left h0]
    · rw [max_eq_right h0.le]
      have hfv : ⌊v⌋ < 0 := by
        rw [Int.floor_lt]
        exact_mod_cast h0
      rw [Int.floor_zero, Int.toNat_of_nonpos hfv.le]
      rfl

theorem prep_display_mask_tagging_witness :
    ((DetRow.mk 0 0 1 1 1 0, (fun _ _ => (1 : ℚ))) ∈
        [DetRow.mk 0 0 1 1 1 0].zip ([fun _ _ => 1] : List (ℕ → ℕ → ℚ))) ∧
    (1/10 : ℚ) ≤ (DetRow.mk 0 0 1 1 1 0).score ∧
    (DetRow.mk 0 0 1 1 1 0).class_id < 255 ∧
    cropped_mask (DetRow.mk 0 0 1 1 1 0) 2 2 (fun _ _ => 1) ∈
      (ONNXDetection.prep_display (1/10) 2 2 [DetRow.mk 0 0 1 1 1 0]
        [fun _ _ => 1]).2.2.2 := by
  have hmem : (DetRow.mk 0 0 1 1 1 0, (fun _ _ => (1 : ℚ))) ∈
      [DetRow.mk 0 0 1 1 1 0].zip ([fun _ _ => 1] : List (ℕ → ℕ → ℚ)) :=
    List.mem_singleton.mpr rfl
  refine ⟨hmem, by norm_num, by decide, ?_⟩
  exact (prep_display_mask_tagging (1/10) 2 2 [DetRow.mk 0 0 1 1 1 0] [fun _ _ => 1]
    (DetRow.mk 0 0 1 1 1 0) (fun _ _ => 1) hmem (by norm_num) (by decide)).1

/-- np_softmax inner row computation (post_process.py lines 322-324):
e_x = np.exp(pred - np_max[idx]); row output = e_x / e_x.sum(). -/
noncomputable def np_softmax_row (pred : List ℝ) (np_max : ℝ) : List ℝ :=
  let e_x := pred.map (fun v => Real.exp (v - np_max))
  e_x.map (fun v => v / e_x.sum)

/-- np_softmax (post_process.py lines 319-326): row-wise softmax with the per-row
maximum np.max(x, axis=1) subtracted before exponentiation.  The max of an empty row
is taken as headD 0; it is irrelevant, every theorem holds for any subtracted value. -/
noncomputable def np_softmax (x : List (List ℝ)) : List (List ℝ) :=
  x.map (fun pred => np_softmax_row pred (pred.foldr max (pred.headD 0)))

/-- RKNNDetection.permute: strips the leading batch dimension of size 1 from
class_p, box_p and coef_p and applies np_softmax to the class tensor; proto_p is
passed through untouched (its type is opaque here). -/
noncomputable def RKNNDetection.permute {π : Type} (class_p box_p coef_p : List (List (List ℝ)))
    (proto_p : π) : List (List ℝ) × List (List ℝ) × List (List ℝ) × π :=
  (np_softmax (class_p.headD []), box_p.headD [], coef_p.headD [], proto_p)

theorem exp_list_sum_pos (pred : List ℝ) (np_max : ℝ) (hne : pred ≠ []) :
    0 < ((pred.map (fun v => Real.exp (v - np_max))).sum) := by
  cases pred with
  | nil => exact absurd rfl hne
  | cons a t =>
    simp only [List.map_cons, List.sum_cons]
    have ht : 0 ≤ (t.map (fun v => Real.exp (v - np_max))).sum :=
      List.sum_nonneg (fun x hx => by
        rcases List.mem_map.mp hx with ⟨v, _, rfl⟩
        exact (Real.exp_pos _).le)
    linarith [Real.exp_pos (a - np_max)]

theorem list_sum_map_div (l : List ℝ) (s : ℝ) :
    (l.map (fun v => v / s)).sum = l.sum / s := by
  induction l with
  | nil => simp
  | cons a t ih => simp [ih, add_div]

theorem np_softmax_row_spec (pred : List ℝ) (np_max : ℝ) (hne : pred ≠ []) :
    (np_softmax_row pred np_max).sum = 1 ∧
    ∀ v ∈ np_softmax_row pred np_max, 0 ≤ v ∧ v ≤ 1 := by
  have hpos : 0 < ((pred.map (fun v => Real.exp (v - np_max))).sum) :=
    exp_list_sum_pos pred np_max hne
  have hrow : np_softmax_row pred np_max
      = (pred.map (fun v => Real.exp (v - np_max))).map
          (fun v => v / (pred.map (fun v => Real.exp (v - np_max))).sum) := rfl
  constructor
  · rw [hrow, list_sum_map_div, div_self (ne_of_gt hpos)]
  · intro v hv
    rw [hrow] at hv
    rcases List.mem_map.mp hv with ⟨u, hu, rfl⟩
    have hu0 : 0 ≤ u := by
      rcases List.mem_map.mp hu with ⟨w0, _, rfl⟩
      exact (Real.exp_pos _).le
    have hall : ∀ x ∈ pred.map (fun v => Real.exp (v - np_max)), 0 ≤ x := by
      intro x hx
      rcases List.mem_map.mp hx with ⟨w0, _, rfl⟩
      exact (Real.exp_pos _).le
    have hus : u ≤ (pred.map (fun v => Real.exp (v - np_max))).sum :=
      List.single_le_sum hall u hu
    exact ⟨div_nonneg hu0 hpos.le, (div_le_one hpos).mpr hus⟩

/-- C6: after RKNNDetection.permute the class-probability tensor is row-wise
softmax-normalized with the per-row maximum subtracted before exponentiation: every
nonempty row of the first returned tensor sums to 1 up to the 1e-5 tolerance (the
exact-arithmetic sum is exactly 1) and every value lies in [0, 1]. -/
theorem permute_softmax_spec {π : Type} (class_p box_p coef_p : List (List (List ℝ)))
    (proto_p : π) (row : List ℝ)
    (hmem : row ∈ (RKNNDetection.permute class_p box_p coef_p proto_p).1)
    (hne : row ≠ []) :
    |row.sum - 1| ≤ 1/100000 ∧ ∀ v ∈ row, 0 ≤ v ∧ v ≤ 1 := by
  have hmem2 : row ∈ np_softmax (class_p.headD []) := hmem
  rcases List.mem_map.mp hmem2 with ⟨pred, _, rfl⟩
  have hpredne : pred ≠ [] := by
    intro hnil
    subst hnil
    exact hne rfl
  obtain ⟨hsum, hvals⟩ := np_softmax_row_spec pred (pred.foldr max (pred.headD 0)) hpredne
  refine ⟨?_, hvals⟩
  rw [hsum]
  norm_num

theorem permute_softmax_witness :
    (np_softmax_row [(0 : ℝ)] (max 0 0) ∈
        (RKNNDetection.permute [[[(0 : ℝ)]]] [] [] (0 : ℕ)).1) ∧
    np_softmax_row [(0 : ℝ)] (max 0 0) ≠ [] ∧
    (|(np_softmax_row [(0 : ℝ)] (max 0 0)).sum - 1| ≤ 1/100000 ∧
      ∀ v ∈ np_softmax_row [(0 : ℝ)] (max 0 0), 0 ≤ v ∧ v ≤ 1) := by
  have hmem : np_softmax_row [(0 : ℝ)] (max 0 0) ∈
      (RKNNDetection.permute [[[(0 : ℝ)]]] [] [] (0 : ℕ)).1 :=
    List.mem_singleton.mpr rfl
  have hne : np_softmax_row [(0 : ℝ)] (max 0 0) ≠ [] := by
    exact List.cons_ne_nil _ _
  exact ⟨hmem, hne, permute_softmax_spec [[[(0 : ℝ)]]] [] [] (0 : ℕ) _ hmem hne⟩

/-- Modelled from the spec: the blocking bounded channel semantics of the
multiprocessing.Queue used for the output channel lives in the Python standard
library, not in this repository; Detection.__init__ only chooses its capacity
(maxsize=3) and Detection.run publishes with a blocking put.  The channel is
modelled as a FIFO list of pending batches together with its capacity. -/
structure BoundedQueue (α : Type) where
  maxsize : ℕ
  items : List α

/-- Modelled from the spec: blocking put on the bounded channel; none means the
producer stays blocked (no transition happens and nothing is dropped), which occurs
exactly when the channel already holds maxsize pending batches; otherwise the batch
is appended at the back. -/
def BoundedQueue.put {α : Type} (q : BoundedQueue α) (x : α) : Option (BoundedQueue α) :=
  if q.items.length < q.maxsize then some ⟨q.maxsize, q.items ++ [x]⟩ else none

/-- Modelled from the spec: blocking get on the bounded channel; removes the oldest
pending batch, none meaning the consumer blocks on an empty channel. -/
def BoundedQueue.get {α : Type} (q : BoundedQueue α) : Option (α × BoundedQueue α) :=
  match q.items with
  | [] => none
  | a :: rest => some (a, ⟨q.maxsize, rest⟩)

/-- Detection.__init__: self.q_out = Queue(maxsize=3). -/
def Detection.q_out_maxsize : ℕ := 3

/-- C9: the output channel holds at most 3 pending batches: with 3 pending, putting
a 4th batch blocks (no transition, nothing dropped), and once a consumer removes one
batch the blocked put succeeds; afterwards the pending batches are exactly the former
ones, minus the consumed head, plus the new batch at the back, so no batch is ever
silently dropped. -/
theorem backpressure_spec {α : Type} (q : BoundedQueue α) (x : α)
    (hm : q.maxsize = Detection.q_out_maxsize) (hfull : q.items.length = 3) :
    q.put x = none ∧
    ∀ (a : α) (q2 : BoundedQueue α), q.get = some (a, q2) →
      ∃ q3 : BoundedQueue α, q2.put x = some q3 ∧ a :: q3.items = q.items ++ [x] := by
  constructor
  · unfold BoundedQueue.put
    have hnot : ¬ (q.items.length < q.maxsize) := by
      rw [hfull, hm]
      decide
    rw [if_neg hnot]
  · intro a q2 hget
    unfold BoundedQueue.get at hget
    cases hq : q.items with
    | nil =>
      rw [hq] at hget
      exact absurd hget (by simp)
    | cons b rest =>
      rw [hq] at hget
      simp only [Option.some.injEq, Prod.mk.injEq] at hget
      obtain ⟨hab, hq2⟩ := hget
      subst hab
      subst hq2
      have hlen : rest.length = 2 := by
        have hf := hfull
        rw [hq] at hf
        simpa using hf
      have hlt : rest.length < q.maxsize := by
        rw [hlen, hm]
        decide
      refine ⟨⟨q.maxsize, rest ++ [x]⟩, ?_, ?_⟩
      · unfold BoundedQueue.put
        rw [if_pos hlt]
      · rfl

theorem backpressure_witness :
    (BoundedQueue.mk 3 [1, 2, 3] : BoundedQueue ℕ).maxsize = Detection.q_out_maxsize ∧
    (BoundedQueue.mk 3 [1, 2, 3] : BoundedQueue ℕ).items.length = 3 ∧
    ((BoundedQueue.mk 3 [1, 2, 3] : BoundedQueue ℕ).put 4 = none ∧
      ∀ (a : ℕ) (q2 : BoundedQueue ℕ),
        (BoundedQueue.mk 3 [1, 2, 3] : BoundedQueue ℕ).get = some (a, q2) →
          ∃ q3 : BoundedQueue ℕ, q2.put 4 = some q3 ∧
            a :: q3.items = (BoundedQueue.mk 3 [1, 2, 3] : BoundedQueue ℕ).items ++ [4]) :=
  ⟨by decide, by decide,
   backpressure_spec (BoundedQueue.mk 3 [1, 2, 3]) 4 (by decide) (by decide)⟩

/-- The color-drawing loop of get_colors: num iterations of
np.random.randint(0, 256, [3]).astype(np.uint8).tolist(), threading the generator
state through the draws. -/
def draw_colors {S : Type} (randint : S → List ℕ × S) : ℕ → S → List (List ℕ)
  | 0, _ => []
  | n + 1, s => (randint s).1 :: draw_colors randint n (randint s).2

/-- get_colors (post_process.py lines 411-417): colors = [[0, 0, 0]], then
np.random.seed(0) resets the global numpy generator, discarding whatever state it
held (the incoming state is the _rng_state argument, never read), and num colors
are drawn from the freshly seeded generator.  The numpy generator itself is an
external library: np_seed gives the state right after seeding and randint performs
one three-component draw. -/
def get_colors {S : Type} (np_seed : ℕ → S) (randint : S → List ℕ × S)
    (_rng_state : S) (num : ℕ) : List (List ℕ) :=
  [0, 0, 0] :: draw_colors randint num (np_seed 0)

theorem draw_colors_length {S : Type} (randint : S → List ℕ × S) :
    ∀ (n : ℕ) (s : S), (draw_colors randint n s).length = n := by
  intro n
  induction n with
  | zero => intro s; rfl
  | succ k ih => intro s; simp [draw_colors, ih]

/-- C10: get_colors is deterministic and independent of the ambient RNG state: the
generator is reseeded with the fixed constant 0 on every call, so two calls with any
two prior generator states return identical lists; the returned list has length
num + 1 and its first entry is the background color [0, 0, 0]. -/
theorem get_colors_deterministic {S : Type} (np_seed : ℕ → S) (randint : S → List ℕ × S)
    (s1 s2 : S) (num : ℕ) :
    get_colors np_seed randint s1 num = get_colors np_seed randint s2 num ∧
    (get_colors np_seed randint s1 num).length = num + 1 ∧
    (get_colors np_seed randint s1 num).headD [] = [0, 0, 0] := by
  refine ⟨rfl, ?_, rfl⟩
  simp [get_colors, draw_colors_length]
